import Mathlib

/-!
Verification development for the blueprint build engine.

The definitions below are shallow embeddings of the Python sources:
`defaults_parser.py` (defaults inheritance), `bpfix/bpfix.py` (fixed-point
tree rewriter), `cc_library.py` (link command construction and install
destination selection), `prebuilt_etc_parser.py` (install destination
selection), `blueprint_parser.py` (key/value extraction), and
`main_build.py` / `cc_binary_parser.py` (defaults map merging).
-/

/-- Property values stored in a module record: the tagged union produced by
the blueprint parser (strings, booleans, integers, lists, nested blocks). -/
inductive Value where
  | str : String → Value
  | bool : Bool → Value
  | int : Int → Value
  | list : List Value → Value
  | block : List (String × Value) → Value

/-- A module record: an ordered association list of property name to value,
modelling a Python dict with unique keys in insertion order. -/
abbrev Record := List (String × Value)

/-- Dictionary lookup: the value at the first occurrence of the key. -/
def getVal : Record → String → Option Value
  | [], _ => none
  | (k1, v1) :: r, k => if k1 = k then some v1 else getVal r k

/-- Dictionary assignment: replace the value at an existing key in place, or
append the binding at the end, exactly as Python dict assignment behaves. -/
def setVal : Record → String → Value → Record
  | [], k, v => [(k, v)]
  | (k1, v1) :: r, k, v => if k1 = k then (k, v) :: r else (k1, v1) :: setVal r k v

/-- One iteration of the inner loop of `apply_defaults` in
`defaults_parser.py`: a property absent from the config is copied from the
default; when both sides hold lists the default's list is prepended;
otherwise the config is left unchanged. -/
def applyItem (c : Record) (kv : String × Value) : Record :=
  match getVal c kv.1 with
  | none => setVal c kv.1 kv.2
  | some old =>
    match old, kv.2 with
    | Value.list l, Value.list d2 => setVal c kv.1 (Value.list (d2 ++ l))
    | _, _ => c

/-- Application of one defaults record to the config: the inner
`for key, value in defaults.items()` loop of `apply_defaults`. -/
def applyOne (c : Record) (d : Record) : Record := d.foldl applyItem c

/-- One step of the outer loop over the names listed under `defaults`:
a string name present in the map applies that defaults record; any other
element (or an unknown name) is skipped. -/
def applyName (m : String → Option Record) (c : Record) (nv : Value) : Record :=
  match nv with
  | Value.str n =>
    match m n with
    | some d => applyOne c d
    | none => c
  | _ => c

/-- The `apply_defaults` function of `defaults_parser.py`: when the config
holds a `defaults` property that is a list, every listed name is applied in
order; a single string name is applied directly; any other shape (or no
`defaults` property) leaves the config as is (the source prints a warning). -/
def apply_defaults (config : Record) (m : String → Option Record) : Record :=
  match getVal config "defaults" with
  | some (Value.list names) => names.foldl (applyName m) config
  | some (Value.str n) =>
    match m n with
    | some d => applyOne config d
    | none => config
  | some _ => config
  | none => config

theorem getVal_setVal_self (c : Record) (k : String) (v : Value) :
    getVal (setVal c k v) k = some v := by
  induction c with
  | nil => simp [setVal, getVal]
  | cons kv r ih =>
    obtain ⟨k1, v1⟩ := kv
    by_cases h : k1 = k
    · simp [setVal, h, getVal]
    · simp [setVal, h, getVal, ih]

theorem getVal_setVal_ne (c : Record) {k1 k : String} (v : Value) (h : k1 ≠ k) :
    getVal (setVal c k1 v) k = getVal c k := by
  induction c with
  | nil => simp [setVal, getVal, h]
  | cons kv r ih =>
    obtain ⟨k2, v2⟩ := kv
    simp only [setVal]
    by_cases h3 : k2 = k1
    · subst h3
      simp [getVal, h]
    · simp only [if_neg h3, getVal]
      by_cases h4 : k2 = k
      · simp [h4]
      · simp [h4, ih]

theorem getVal_applyItem_ne (c : Record) (kv : String × Value) {k : String}
    (h : kv.1 ≠ k) : getVal (applyItem c kv) k = getVal c k := by
  obtain ⟨k1, v1⟩ := kv
  simp only [applyItem]
  cases hg : getVal c k1 with
  | none => exact getVal_setVal_ne c _ h
  | some old =>
    cases old <;> cases v1 <;> first
      | exact getVal_setVal_ne c _ h
      | rfl

theorem getVal_applyOne_notMem (d : Record) : ∀ (c : Record) (k : String),
    k ∉ d.map Prod.fst → getVal (applyOne c d) k = getVal c k := by
  induction d with
  | nil => intro c k _; rfl
  | cons kv r ih =>
    intro c k hk
    simp only [List.map_cons, List.mem_cons, not_or] at hk
    have h1 : applyOne c (kv :: r) = applyOne (applyItem c kv) r := by
      simp [applyOne, List.foldl_cons]
    rw [h1, ih (applyItem c kv) k hk.2]
    exact getVal_applyItem_ne c kv (fun hh => hk.1 hh.symm)

theorem getVal_eq_some_split {c : Record} {k : String} {v : Value}
    (h : getVal c k = some v) :
    ∃ c1 c2, c = c1 ++ (k, v) :: c2 ∧ k ∉ c1.map Prod.fst := by
  induction c with
  | nil => simp [getVal] at h
  | cons kv r ih =>
    obtain ⟨k1, v1⟩ := kv
    by_cases hk : k1 = k
    · subst hk
      simp [getVal] at h
      exact ⟨[], r, by simp [h], by simp⟩
    · simp only [getVal, if_neg hk] at h
      obtain ⟨c1, c2, he, hn⟩ := ih h
      refine ⟨(k1, v1) :: c1, c2, by simp [he], ?_⟩
      simp only [List.map_cons, List.mem_cons, not_or]
      exact ⟨fun hh => hk hh.symm, hn⟩

theorem applyItem_list_merge {c : Record} {k : String} {L D : List Value}
    (h : getVal c k = some (Value.list L)) :
    applyItem c (k, Value.list D) = setVal c k (Value.list (D ++ L)) := by
  simp only [applyItem]
  rw [h]

/-- C1: for a target record with local list `L` under a property key and a
single applied default contributing list `D` under the same key, the
resolved value for that key is exactly `D ++ L` (default entries first,
then local entries), for all lists `L` and `D`. -/
theorem c1_list_merge (config : Record) (m : String → Option Record)
    (n k : String) (d : Record) (L D : List Value)
    (hdef : getVal config "defaults" = some (Value.list [Value.str n]))
    (hm : m n = some d)
    (hL : getVal config k = some (Value.list L))
    (hD : getVal d k = some (Value.list D))
    (hnd : (d.map Prod.fst).Nodup) :
    getVal (apply_defaults config m) k = some (Value.list (D ++ L)) := by
  unfold apply_defaults
  rw [hdef]
  simp only [List.foldl_cons, List.foldl_nil, applyName]
  rw [hm]
  obtain ⟨d1, d2, hde, hd1⟩ := getVal_eq_some_split hD
  have hd2 : k ∉ d2.map Prod.fst := by
    rw [hde] at hnd
    simp only [List.map_append, List.map_cons, List.nodup_append] at hnd
    exact (List.nodup_cons.mp hnd.2.1).1
  rw [hde]
  show getVal ((d1 ++ (k, Value.list D) :: d2).foldl applyItem config) k = _
  rw [List.foldl_append, List.foldl_cons]
  have h1 : getVal (applyOne config d1) k = some (Value.list L) := by
    rw [getVal_applyOne_notMem d1 config k hd1]; exact hL
  rw [show List.foldl applyItem config d1 = applyOne config d1 from rfl]
  rw [applyItem_list_merge h1]
  have h2 := getVal_applyOne_notMem d2 (setVal (applyOne config d1) k (Value.list (D ++ L))) k hd2
  rw [show List.foldl applyItem (setVal (applyOne config d1) k (Value.list (D ++ L))) d2
        = applyOne (setVal (applyOne config d1) k (Value.list (D ++ L))) d2 from rfl]
  rw [h2]
  exact getVal_setVal_self _ _ _

/-- Witness for C1 at a concrete record and defaults map. -/
theorem c1_witness :
    getVal
      (apply_defaults
        [("defaults", Value.list [Value.str "d"]), ("srcs", Value.list [Value.str "a.c"])]
        (fun x => if x = "d" then
          some [("name", Value.str "d"), ("srcs", Value.list [Value.str "b.c"])] else none))
      "srcs" = some (Value.list [Value.str "b.c", Value.str "a.c"]) :=
  c1_list_merge
    [("defaults", Value.list [Value.str "d"]), ("srcs", Value.list [Value.str "a.c"])]
    (fun x => if x = "d" then
      some [("name", Value.str "d"), ("srcs", Value.list [Value.str "b.c"])] else none)
    "d" "srcs" [("name", Value.str "d"), ("srcs", Value.list [Value.str "b.c"])]
    [Value.str "a.c"] [Value.str "b.c"] rfl rfl rfl rfl (by decide)

theorem applyItem_keep {c : Record} {k : String} {w : Value} (kv : String × Value)
    (hw : getVal c k = some w) (hk : kv.1 = k)
    (h : (∀ l, w ≠ Value.list l) ∨ (∀ l, kv.2 ≠ Value.list l)) :
    applyItem c kv = c := by
  obtain ⟨k1, v1⟩ := kv
  simp only at hk
  subst hk
  simp only [applyItem]
  rw [hw]
  cases w <;> cases v1 <;>
    first
      | rfl
      | (rcases h with h | h <;> exact absurd rfl (h _))

theorem getVal_applyOne_scalar (d : Record) : ∀ (c : Record) (k : String) (w : Value),
    getVal c k = some w → (∀ l, w ≠ Value.list l) →
    getVal (applyOne c d) k = some w := by
  induction d with
  | nil => intro c k w hw _; exact hw
  | cons kv r ih =>
    intro c k w hw hnl
    have h1 : applyOne c (kv :: r) = applyOne (applyItem c kv) r := by
      simp [applyOne, List.foldl_cons]
    rw [h1]
    by_cases hk : kv.1 = k
    · rw [applyItem_keep kv hw hk (Or.inl hnl)]
      exact ih c k w hw hnl
    · exact ih _ k w (by rw [getVal_applyItem_ne c kv hk]; exact hw) hnl

theorem getVal_applyName_scalar (m : String → Option Record) (nv : Value)
    (c : Record) (k : String) (w : Value) (hw : getVal c k = some w)
    (hnl : ∀ l, w ≠ Value.list l) :
    getVal (applyName m c nv) k = some w := by
  cases nv <;> try exact hw
  case str n =>
    simp only [applyName]
    cases hm : m n with
    | some d => exact getVal_applyOne_scalar d c k w hw hnl
    | none => exact hw

theorem getVal_foldl_applyName_scalar (m : String → Option Record)
    (names : List Value) : ∀ (c : Record) (k : String) (w : Value),
    getVal c k = some w → (∀ l, w ≠ Value.list l) →
    getVal (names.foldl (applyName m) c) k = some w := by
  induction names with
  | nil => intro c k w hw _; exact hw
  | cons nv r ih =>
    intro c k w hw hnl
    rw [List.foldl_cons]
    exact ih _ k w (getVal_applyName_scalar m nv c k w hw hnl) hnl

theorem getVal_apply_defaults_scalar (config : Record) (m : String → Option Record)
    (k : String) (w : Value) (hw : getVal config k = some w)
    (hnl : ∀ l, w ≠ Value.list l) :
    getVal (apply_defaults config m) k = some w := by
  cases hdv : getVal config "defaults" with
  | none =>
    have hred : apply_defaults config m = config := by simp only [apply_defaults, hdv]
    rw [hred]; exact hw
  | some dv =>
    cases dv with
    | str n =>
      cases hm : m n with
      | some d =>
        have hred : apply_defaults config m = applyOne config d := by
          simp only [apply_defaults, hdv, hm]
        rw [hred]
        exact getVal_applyOne_scalar d config k w hw hnl
      | none =>
        have hred : apply_defaults config m = config := by
          simp only [apply_defaults, hdv, hm]
        rw [hred]; exact hw
    | list names =>
      have hred : apply_defaults config m = names.foldl (applyName m) config := by
        simp only [apply_defaults, hdv]
      rw [hred]
      exact getVal_foldl_applyName_scalar m names config k w hw hnl
    | bool b =>
      have hred : apply_defaults config m = config := by simp only [apply_defaults, hdv]
      rw [hred]; exact hw
    | int i =>
      have hred : apply_defaults config m = config := by simp only [apply_defaults, hdv]
      rw [hred]; exact hw
    | block bl =>
      have hred : apply_defaults config m = config := by simp only [apply_defaults, hdv]
      rw [hred]; exact hw

theorem getVal_applyOne_fill (d : Record) (c : Record) (p : String) (v1 : Value)
    (hc : getVal c p = none) (hd : getVal d p = some v1)
    (hnl : ∀ l, v1 ≠ Value.list l) :
    getVal (applyOne c d) p = some v1 := by
  obtain ⟨e1, e2, hde, he1⟩ := getVal_eq_some_split hd
  rw [hde]
  have h1 : applyOne c (e1 ++ (p, v1) :: e2)
      = applyOne (applyItem (applyOne c e1) (p, v1)) e2 := by
    simp [applyOne, List.foldl_append, List.foldl_cons]
  rw [h1]
  have h2 : getVal (applyOne c e1) p = none := by
    rw [getVal_applyOne_notMem e1 c p he1]; exact hc
  have h3 : applyItem (applyOne c e1) (p, v1) = setVal (applyOne c e1) p v1 := by
    simp only [applyItem]; rw [h2]
  rw [h3]
  exact getVal_applyOne_scalar e2 _ p v1 (getVal_setVal_self _ _ _) hnl

/-- C3: resolving `defaults: ["d1","d2"]` where both defaults define a scalar
(non-list) property `p` absent from the target yields d1's value for `p`;
and in general a non-list property already present on a record is never
changed by applying further defaults. -/
theorem c3_scalar_first_wins (config : Record) (m : String → Option Record)
    (n1 n2 p : String) (d1 d2 : Record) (v1 v2 : Value)
    (hdef : getVal config "defaults" = some (Value.list [Value.str n1, Value.str n2]))
    (h1 : m n1 = some d1) (h2 : m n2 = some d2)
    (hp : getVal config p = none)
    (hv1 : getVal d1 p = some v1) (hv2 : getVal d2 p = some v2)
    (hs1 : ∀ l, v1 ≠ Value.list l) :
    getVal (apply_defaults config m) p = some v1 ∧
      (∀ (cfg : Record) (q : String) (w : Value), getVal cfg q = some w →
        (∀ l, w ≠ Value.list l) → getVal (apply_defaults cfg m) q = some w) := by
  constructor
  · unfold apply_defaults
    rw [hdef]
    simp only [List.foldl_cons, List.foldl_nil, applyName]
    rw [h1, h2]
    have ha : getVal (applyOne config d1) p = some v1 :=
      getVal_applyOne_fill d1 config p v1 hp hv1 hs1
    exact getVal_applyOne_scalar d2 _ p v1 ha hs1
  · intro cfg q w hw hnl
    exact getVal_apply_defaults_scalar cfg m q w hw hnl

/-- Witness for C3 at a concrete record where both listed defaults define
the scalar property `p`. -/
theorem c3_witness :
    getVal (apply_defaults
      [("defaults", Value.list [Value.str "d1", Value.str "d2"])]
      (fun x => if x = "d1" then some [("p", Value.str "one")]
        else if x = "d2" then some [("p", Value.str "two")] else none)) "p"
      = some (Value.str "one") :=
  (c3_scalar_first_wins
    [("defaults", Value.list [Value.str "d1", Value.str "d2"])]
    (fun x => if x = "d1" then some [("p", Value.str "one")]
      else if x = "d2" then some [("p", Value.str "two")] else none)
    "d1" "d2" "p" [("p", Value.str "one")] [("p", Value.str "two")]
    (Value.str "one") (Value.str "two")
    rfl rfl rfl rfl rfl rfl (fun _ hq => Value.noConfusion hq)).1

/-- Concrete target record used to examine re-running the defaults resolver. -/
def c2cfg : Record :=
  [("defaults", Value.list [Value.str "d"]), ("srcs", Value.list [Value.str "a"])]

/-- Concrete defaults map whose single record contributes a list property. -/
def c2map : String → Option Record :=
  fun x => if x = "d" then some [("srcs", Value.list [Value.str "b"])] else none

/-- C2 counterexample: `apply_defaults` is not idempotent. Re-applying it to
the already-resolved record prepends the default's list again: the first run
yields `srcs = [b, a]`, the second `srcs = [b, b, a]`. -/
theorem c2_counterexample :
    apply_defaults (apply_defaults c2cfg c2map) c2map ≠ apply_defaults c2cfg c2map := by
  intro heq
  have h1 : getVal (apply_defaults (apply_defaults c2cfg c2map) c2map) "srcs"
      = some (Value.list [Value.str "b", Value.str "b", Value.str "a"]) := rfl
  rw [heq] at h1
  have h2 : getVal (apply_defaults c2cfg c2map) "srcs"
      = some (Value.list [Value.str "b", Value.str "a"]) := rfl
  rw [h2] at h1
  simp at h1

theorem applyItem_hasKey_self (c : Record) (k : String) (v : Value) :
    getVal (applyItem c (k, v)) k ≠ none := by
  simp only [applyItem]
  cases hg : getVal c k with
  | none =>
    rw [getVal_setVal_self]; simp
  | some old =>
    cases old <;> cases v <;>
      first
        | (rw [getVal_setVal_self]; simp)
        | (rw [hg]; simp)

theorem applyItem_hasKey_mono (c : Record) (kv : String × Value) (k : String)
    (h : getVal c k ≠ none) : getVal (applyItem c kv) k ≠ none := by
  obtain ⟨k1, v1⟩ := kv
  by_cases hk : k1 = k
  · subst hk; exact applyItem_hasKey_self c k1 v1
  · rw [getVal_applyItem_ne c (k1, v1) hk]; exact h

theorem applyOne_hasKey_mono (d : Record) : ∀ (c : Record) (k : String),
    getVal c k ≠ none → getVal (applyOne c d) k ≠ none := by
  induction d with
  | nil => intro c k h; exact h
  | cons kv r ih =>
    intro c k h
    have h1 : applyOne c (kv :: r) = applyOne (applyItem c kv) r := by
      simp [applyOne, List.foldl_cons]
    rw [h1]
    exact ih _ k (applyItem_hasKey_mono c kv k h)

theorem applyOne_hasKey_of_mem (d : Record) : ∀ (c : Record) (kv : String × Value),
    kv ∈ d → getVal (applyOne c d) kv.1 ≠ none := by
  induction d with
  | nil => intro c kv h; cases h
  | cons kv0 r ih =>
    intro c kv h
    have h1 : applyOne c (kv0 :: r) = applyOne (applyItem c kv0) r := by
      simp [applyOne, List.foldl_cons]
    rw [h1]
    rcases List.mem_cons.mp h with h | h
    · subst h
      apply applyOne_hasKey_mono r
      obtain ⟨k, v⟩ := kv
      exact applyItem_hasKey_self c k v
    · exact ih _ kv h

theorem applyName_hasKey_mono (m : String → Option Record) (nv : Value)
    (c : Record) (k : String) (h : getVal c k ≠ none) :
    getVal (applyName m c nv) k ≠ none := by
  cases nv <;> try exact h
  case str n =>
    simp only [applyName]
    cases hm : m n with
    | some d => exact applyOne_hasKey_mono d c k h
    | none => exact h

theorem foldl_applyName_hasKey_mono (m : String → Option Record)
    (names : List Value) : ∀ (c : Record) (k : String),
    getVal c k ≠ none → getVal (names.foldl (applyName m) c) k ≠ none := by
  induction names with
  | nil => intro c k h; exact h
  | cons nv r ih =>
    intro c k h
    rw [List.foldl_cons]
    exact ih _ k (applyName_hasKey_mono m nv c k h)

theorem foldl_applyName_hasKey_of_applied (m : String → Option Record)
    (names : List Value) : ∀ (c : Record) (n : String) (d : Record)
    (kv : String × Value), Value.str n ∈ names → m n = some d → kv ∈ d →
    getVal (names.foldl (applyName m) c) kv.1 ≠ none := by
  induction names with
  | nil => intro c n d kv h _ _; cases h
  | cons nv r ih =>
    intro c n d kv hmem hm hkv
    rw [List.foldl_cons]
    rcases List.mem_cons.mp hmem with h | h
    · apply foldl_applyName_hasKey_mono m r
      rw [← h]
      simp only [applyName]
      rw [hm]
      exact applyOne_hasKey_of_mem d c kv hkv
    · exact ih (applyName m c nv) n d kv h hm hkv

theorem applyOne_eq_self (d : Record) : ∀ (c : Record),
    (∀ kv ∈ d, ∀ l, kv.2 ≠ Value.list l) →
    (∀ kv ∈ d, getVal c kv.1 ≠ none) →
    applyOne c d = c := by
  induction d with
  | nil => intro c _ _; rfl
  | cons kv r ih =>
    intro c hnl hpres
    have h1 : applyOne c (kv :: r) = applyOne (applyItem c kv) r := by
      simp [applyOne, List.foldl_cons]
    have hk : getVal c kv.1 ≠ none := hpres kv (List.mem_cons_self _ _)
    cases hg : getVal c kv.1 with
    | none => exact absurd hg hk
    | some w =>
      have heq : applyItem c kv = c :=
        applyItem_keep kv hg rfl (Or.inr (hnl kv (List.mem_cons_self _ _)))
      rw [h1, heq]
      exact ih c (fun kv2 h2 => hnl kv2 (List.mem_cons_of_mem _ h2))
        (fun kv2 h2 => hpres kv2 (List.mem_cons_of_mem _ h2))

theorem getVal_applyOne_preserved (d : Record) : ∀ (c : Record) (k : String),
    (∀ kv ∈ d, ∀ l, kv.2 ≠ Value.list l) → getVal c k ≠ none →
    getVal (applyOne c d) k = getVal c k := by
  induction d with
  | nil => intro c k _ _; rfl
  | cons kv r ih =>
    intro c k hnl hk
    have h1 : applyOne c (kv :: r) = applyOne (applyItem c kv) r := by
      simp [applyOne, List.foldl_cons]
    rw [h1]
    by_cases hek : kv.1 = k
    · subst hek
      cases hg : getVal c kv.1 with
      | none => exact absurd hg hk
      | some w =>
        have heq : applyItem c kv = c :=
          applyItem_keep kv hg rfl (Or.inr (hnl kv (List.mem_cons_self _ _)))
        rw [heq]
        rw [ih c kv.1 (fun kv2 h2 => hnl kv2 (List.mem_cons_of_mem _ h2)) hk]
        exact hg
    · have h2 : getVal (applyItem c kv) k = getVal c k := getVal_applyItem_ne c kv hek
      rw [ih (applyItem c kv) k (fun kv2 hm2 => hnl kv2 (List.mem_cons_of_mem _ hm2))
        (by rw [h2]; exact hk), h2]

theorem getVal_applyName_preserved (m : String → Option Record) (nv : Value)
    (c : Record) (k : String)
    (hnd : ∀ n d, m n = some d → ∀ kv ∈ d, ∀ l, kv.2 ≠ Value.list l)
    (hk : getVal c k ≠ none) :
    getVal (applyName m c nv) k = getVal c k := by
  cases nv <;> try rfl
  case str n =>
    simp only [applyName]
    cases hm : m n with
    | some d => exact getVal_applyOne_preserved d c k (hnd n d hm) hk
    | none => rfl

theorem getVal_foldl_applyName_preserved (m : String → Option Record)
    (names : List Value) : ∀ (c : Record) (k : String),
    (∀ n d, m n = some d → ∀ kv ∈ d, ∀ l, kv.2 ≠ Value.list l) →
    getVal c k ≠ none →
    getVal (names.foldl (applyName m) c) k = getVal c k := by
  induction names with
  | nil => intro c k _ _; rfl
  | cons nv r ih =>
    intro c k hnd hk
    rw [List.foldl_cons]
    have h2 : getVal (applyName m c nv) k = getVal c k :=
      getVal_applyName_preserved m nv c k hnd hk
    rw [ih (applyName m c nv) k hnd (by rw [h2]; exact hk), h2]

theorem foldl_applyName_eq_self (m : String → Option Record) (c : Record)
    (hnd : ∀ n d, m n = some d → ∀ kv ∈ d, ∀ l, kv.2 ≠ Value.list l) :
    ∀ (names2 : List Value),
    (∀ n d kv, Value.str n ∈ names2 → m n = some d → kv ∈ d → getVal c kv.1 ≠ none) →
    names2.foldl (applyName m) c = c := by
  intro names2
  induction names2 with
  | nil => intro _; rfl
  | cons nv r ih =>
    intro hpres
    rw [List.foldl_cons]
    have hstep : applyName m c nv = c := by
      cases nv <;> try rfl
      case str n =>
        simp only [applyName]
        cases hm : m n with
        | some d =>
          exact applyOne_eq_self d c (hnd n d hm)
            (fun kv hkv => hpres n d kv (List.mem_cons_self _ _) hm hkv)
        | none => rfl
    rw [hstep]
    exact ih (fun n d kv hn hm hkv => hpres n d kv (List.mem_cons_of_mem _ hn) hm hkv)

/-- C2 amended: `apply_defaults` is idempotent provided no applied default
contributes a list-valued property. In general re-running it on the resolved
record prepends each default's list again to every shared list-valued key,
so a second application can change the result (see the counterexample). -/
theorem c2_idempotent_nonlist (config : Record) (m : String → Option Record)
    (hnd : ∀ n d, m n = some d → ∀ kv ∈ d, ∀ l, kv.2 ≠ Value.list l) :
    apply_defaults (apply_defaults config m) m = apply_defaults config m := by
  cases hdv : getVal config "defaults" with
  | none =>
    have h0 : apply_defaults config m = config := by simp only [apply_defaults, hdv]
    rw [h0]; exact h0
  | some dv =>
    cases dv with
    | str n =>
      cases hm : m n with
      | none =>
        have h0 : apply_defaults config m = config := by
          simp only [apply_defaults, hdv, hm]
        rw [h0]; exact h0
      | some d =>
        have hfirst : apply_defaults config m = applyOne config d := by
          simp only [apply_defaults, hdv, hm]
        have hdv2 : getVal (applyOne config d) "defaults" = some (Value.str n) := by
          rw [getVal_applyOne_preserved d config "defaults" (hnd n d hm)
            (by rw [hdv]; simp)]
          exact hdv
        have hsecond : apply_defaults (applyOne config d) m
            = applyOne (applyOne config d) d := by
          simp only [apply_defaults, hdv2, hm]
        rw [hfirst, hsecond]
        exact applyOne_eq_self d (applyOne config d) (hnd n d hm)
          (fun kv hkv => applyOne_hasKey_of_mem d config kv hkv)
    | list names =>
      have hfirst : apply_defaults config m = names.foldl (applyName m) config := by
        simp only [apply_defaults, hdv]
      have hdv2 : getVal (names.foldl (applyName m) config) "defaults"
          = some (Value.list names) := by
        rw [getVal_foldl_applyName_preserved m names config "defaults" hnd
          (by rw [hdv]; simp)]
        exact hdv
      have hsecond : apply_defaults (names.foldl (applyName m) config) m
          = names.foldl (applyName m) (names.foldl (applyName m) config) := by
        simp only [apply_defaults, hdv2]
      rw [hfirst, hsecond]
      exact foldl_applyName_eq_self m (names.foldl (applyName m) config) hnd names
        (fun n d kv hn hm hkv =>
          foldl_applyName_hasKey_of_applied m names config n d kv hn hm hkv)
    | bool b =>
      have h0 : apply_defaults config m = config := by simp only [apply_defaults, hdv]
      rw [h0]; exact h0
    | int i =>
      have h0 : apply_defaults config m = config := by simp only [apply_defaults, hdv]
      rw [h0]; exact h0
    | block bl =>
      have h0 : apply_defaults config m = config := by simp only [apply_defaults, hdv]
      rw [h0]; exact h0

/-- Witness for the amended C2 at a concrete record and a defaults map whose
record carries only scalar values. -/
theorem c2_witness :
    apply_defaults (apply_defaults [("defaults", Value.str "d")]
        (fun x => if x = "d" then some [("p", Value.str "v")] else none))
        (fun x => if x = "d" then some [("p", Value.str "v")] else none)
      = apply_defaults [("defaults", Value.str "d")]
        (fun x => if x = "d" then some [("p", Value.str "v")] else none) := by
  apply c2_idempotent_nonlist
  intro n d hm kv hkv l
  by_cases hx : n = "d"
  · subst hx
    rw [if_pos rfl] at hm
    injection hm with hm
    subst hm
    simp only [List.mem_singleton] at hkv
    subst hkv
    simp
  · rw [if_neg hx] at hm
    exact Option.noConfusion hm

/-- Read of a record at a heap index (the Python object a variable refers
to); a missing index yields the empty record. -/
def heapGet (h : List Record) (i : Nat) : Record := h.getD i []

/-- One step of the outer loop of `apply_defaults` viewed as a mutation of a
heap of records: the target slot `t` is overwritten with the merge of its
current contents and the defaults record found at the mapped index, reading
both from the current heap exactly as the Python loop does. -/
def applyNameHeap (m : String → Option Nat) (t : Nat) (h : List Record)
    (nv : Value) : List Record :=
  match nv with
  | Value.str n =>
    match m n with
    | some i => h.set t (applyOne (heapGet h t) (heapGet h i))
    | none => h
  | _ => h

/-- The `apply_defaults` function acting on a heap of records: the target is
the record stored at index `t`, and the defaults map `m` names heap indices
of the registered defaults records. Only the slot `t` is ever written. -/
def apply_defaults_heap (h : List Record) (t : Nat) (m : String → Option Nat) :
    List Record :=
  match getVal (heapGet h t) "defaults" with
  | some (Value.list names) => names.foldl (applyNameHeap m t) h
  | some (Value.str n) =>
    match m n with
    | some i => h.set t (applyOne (heapGet h t) (heapGet h i))
    | none => h
  | some _ => h
  | none => h

theorem heapGet_set_ne (h : List Record) (t i : Nat) (r : Record) (hne : i ≠ t) :
    heapGet (h.set t r) i = heapGet h i := by
  unfold heapGet
  rw [List.getD_eq_getElem?_getD, List.getD_eq_getElem?_getD]
  rw [List.getElem?_set_ne (fun hh => hne hh.symm)]

theorem heapGet_applyNameHeap_ne (m : String → Option Nat) (t : Nat)
    (nv : Value) (h : List Record) (i : Nat) (hne : i ≠ t) :
    heapGet (applyNameHeap m t h nv) i = heapGet h i := by
  cases nv <;> try rfl
  case str n =>
    simp only [applyNameHeap]
    cases hm : m n with
    | some j => exact heapGet_set_ne h t i _ hne
    | none => rfl

theorem heapGet_foldl_applyNameHeap_ne (m : String → Option Nat) (t : Nat)
    (names : List Value) : ∀ (h : List Record) (i : Nat), i ≠ t →
    heapGet (names.foldl (applyNameHeap m t) h) i = heapGet h i := by
  induction names with
  | nil => intro h i _; rfl
  | cons nv r ih =>
    intro h i hne
    rw [List.foldl_cons, ih (applyNameHeap m t h nv) i hne]
    exact heapGet_applyNameHeap_ne m t nv h i hne

/-- C6: defaults resolution never mutates a registered defaults record.
Whenever the defaults map only names heap slots distinct from the target
slot `t` (as in every call site, where the map holds only `defaults` and
`cc_defaults` records and targets are other records), every record reachable
through the map is identical before and after `apply_defaults_heap` runs;
only the target slot receives the new merged property set. -/
theorem c6_defaults_not_mutated (h : List Record) (t : Nat)
    (m : String → Option Nat) (hsep : ∀ n i, m n = some i → i ≠ t) :
    ∀ n i, m n = some i →
      heapGet (apply_defaults_heap h t m) i = heapGet h i := by
  intro n i hm
  have hne : i ≠ t := hsep n i hm
  cases hdv : getVal (heapGet h t) "defaults" with
  | none =>
    have hred : apply_defaults_heap h t m = h := by
      simp only [apply_defaults_heap, hdv]
    rw [hred]
  | some dv =>
    cases dv with
    | list names =>
      have hred : apply_defaults_heap h t m = names.foldl (applyNameHeap m t) h := by
        simp only [apply_defaults_heap, hdv]
      rw [hred]
      exact heapGet_foldl_applyNameHeap_ne m t names h i hne
    | str n2 =>
      cases hm2 : m n2 with
      | some j =>
        have hred : apply_defaults_heap h t m
            = h.set t (applyOne (heapGet h t) (heapGet h j)) := by
          simp only [apply_defaults_heap, hdv, hm2]
        rw [hred]
        exact heapGet_set_ne h t i _ hne
      | none =>
        have hred : apply_defaults_heap h t m = h := by
          simp only [apply_defaults_heap, hdv, hm2]
        rw [hred]
    | bool b =>
      have hred : apply_defaults_heap h t m = h := by
        simp only [apply_defaults_heap, hdv]
      rw [hred]
    | int j =>
      have hred : apply_defaults_heap h t m = h := by
        simp only [apply_defaults_heap, hdv]
      rw [hred]
    | block bl =>
      have hred : apply_defaults_heap h t m = h := by
        simp only [apply_defaults_heap, hdv]
      rw [hred]

/-- Witness for C6: a concrete two-slot heap whose target names the defaults
record in slot 1; the stored defaults record is unchanged by resolution. -/
theorem c6_witness :
    heapGet (apply_defaults_heap
      [[("defaults", Value.str "d"), ("srcs", Value.list [Value.str "a"])],
       [("name", Value.str "d"), ("cflags", Value.list [Value.str "-O2"])]]
      0 (fun x => if x = "d" then some 1 else none)) 1
    = heapGet
      [[("defaults", Value.str "d"), ("srcs", Value.list [Value.str "a"])],
       [("name", Value.str "d"), ("cflags", Value.list [Value.str "-O2"])]] 1 :=
  c6_defaults_not_mutated _ 0 _
    (by
      intro n i hm
      by_cases hx : n = "d"
      · rw [if_pos hx] at hm
        injection hm with hm
        omega
      · rw [if_neg hx] at hm
        exact Option.noConfusion hm)
    "d" 1 (by rw [if_pos rfl])

/-- The `fix_tree_once` method of `Fixer` in `bpfix.py`: apply every fix
step once, in order, to the tree. -/
def fix_tree_once {α : Type} (steps : List (α → α)) (t : α) : α :=
  steps.foldl (fun u s => s u) t

/-- Iterated application of the full pass, used to phrase hypotheses about
the sequence of trees the rewriter visits. -/
def iterN {α : Type} (F : α → α) : Nat → α → α
  | 0, t => t
  | n + 1, t => iterN F n (F t)

/-- The convergence loop of `Fixer.fix`: `prev` is the fingerprint computed
before the pass, `p` is the fingerprint function (canonical print of the
tree), and the fuel is the remaining loop iterations out of the cap of 20.
Exhausted fuel is the for-else branch raising the non-convergence error.
The second component counts how many passes `fix_tree_once` ran. -/
def fixLoop {α : Type} (F : α → α) (p : α → String) :
    Nat → String → α → Except String α × Nat
  | 0, _, _ => (Except.error "Applied fixes too many times; possible infinite loop.", 0)
  | n + 1, prev, t =>
    let t2 := F t
    let fp := p t2
    if fp = prev then (Except.ok t2, 1)
    else
      let r := fixLoop F p n fp t2
      (r.1, r.2 + 1)

/-- The `fix` method of `Fixer` in `bpfix.py`: fingerprint the tree, then
repeatedly apply the full step list (at most `max_num_iterations = 20`
times) until two consecutive fingerprints agree, returning the tree, or
raise the non-convergence error when the cap is exhausted. -/
def fixer_fix {α : Type} (steps : List (α → α)) (p : α → String) (t : α) :
    Except String α × Nat :=
  fixLoop (fix_tree_once steps) p 20 (p t) t

theorem fixLoop_error {α : Type} (F : α → α) (p : α → String) :
    ∀ (k : Nat) (t : α),
    (∀ i < k, p (iterN F (i + 1) t) ≠ p (iterN F i t)) →
    fixLoop F p k (p t) t
      = (Except.error "Applied fixes too many times; possible infinite loop.", k) := by
  intro k
  induction k with
  | zero => intro t _; rfl
  | succ n ih =>
    intro t h
    have h0 : p (F t) ≠ p t := h 0 (Nat.succ_pos n)
    show (if p (F t) = p t then (Except.ok (F t), 1)
      else
        let r := fixLoop F p n (p (F t)) (F t)
        (r.1, r.2 + 1)) = _
    rw [if_neg h0]
    have hrec := ih (F t) (fun i hi => h (i + 1) (Nat.succ_lt_succ hi))
    simp only [hrec]

/-- C4: on any input whose pass sequence never reaches a stable fingerprint
(every pass changes the fingerprint, as with steps that alternately toggle a
property), `Fixer.fix` runs the full step list exactly 20 times — the
configured iteration cap — and then raises the fatal non-convergence error
instead of returning a tree. -/
theorem c4_nonconvergence {α : Type} (steps : List (α → α)) (p : α → String)
    (t : α)
    (h : ∀ i < 20, p (iterN (fix_tree_once steps) (i + 1) t)
      ≠ p (iterN (fix_tree_once steps) i t)) :
    fixer_fix steps p t
      = (Except.error "Applied fixes too many times; possible infinite loop.", 20) :=
  fixLoop_error (fix_tree_once steps) p 20 t h

/-- Witness for C4: a single toggling step on booleans never stabilises, so
the rewriter raises after exactly 20 passes. -/
theorem c4_witness :
    fixer_fix [Bool.not, id] (fun b => cond b "t" "f") false
      = (Except.error "Applied fixes too many times; possible infinite loop.", 20) :=
  c4_nonconvergence [Bool.not, id] (fun b => cond b "t" "f") false (by decide)

/-- First toggling step of the C5 counterexample: copy property `b` into
property `a` (idempotent on its own output). -/
def stepA (t : Nat × Nat) : Nat × Nat := (t.2, t.2)

/-- Second toggling step of the C5 counterexample: set property `b` to
`a + 1` (idempotent on its own output). -/
def stepB (t : Nat × Nat) : Nat × Nat := (t.1, t.1 + 1)

/-- Canonical print of the two-property tree used as its fingerprint. -/
def pairPrint (t : Nat × Nat) : String := Nat.repr t.1 ++ "," ++ Nat.repr t.2

/-- C5 counterexample: both steps are idempotent on their own output, yet
their composition never converges — `Fixer.fix` exhausts the 20-pass cap and
raises instead of terminating within 2 passes. -/
theorem c5_counterexample :
    (∀ t, stepA (stepA t) = stepA t) ∧ (∀ t, stepB (stepB t) = stepB t) ∧
    (fixer_fix [stepA, stepB] pairPrint (0, 0)).1
      = Except.error "Applied fixes too many times; possible infinite loop." :=
  ⟨fun _ => rfl, fun _ => rfl, rfl⟩

/-- C5 amended: when the full pass over the step list is idempotent (one
whole pass applied to its own output is a no-op — a stronger contract than
per-step idempotence), `Fixer.fix` terminates successfully within at most 2
passes and returns the fixed tree. -/
theorem c5_fixed_point {α : Type} (steps : List (α → α)) (p : α → String)
    (t : α)
    (h : ∀ s, fix_tree_once steps (fix_tree_once steps s) = fix_tree_once steps s) :
    (fixer_fix steps p t).1 = Except.ok (fix_tree_once steps t) ∧
      (fixer_fix steps p t).2 ≤ 2 := by
  have key : fixer_fix steps p t = (Except.ok (fix_tree_once steps t), 1) ∨
      fixer_fix steps p t = (Except.ok (fix_tree_once steps t), 2) := by
    by_cases hc : p (fix_tree_once steps t) = p t
    · left
      show (if p (fix_tree_once steps t) = p t
        then (Except.ok (fix_tree_once steps t), 1)
        else
          let r := fixLoop (fix_tree_once steps) p 19
            (p (fix_tree_once steps t)) (fix_tree_once steps t)
          (r.1, r.2 + 1)) = _
      rw [if_pos hc]
    · right
      show (if p (fix_tree_once steps t) = p t
        then (Except.ok (fix_tree_once steps t), 1)
        else
          let r := fixLoop (fix_tree_once steps) p 19
            (p (fix_tree_once steps t)) (fix_tree_once steps t)
          (r.1, r.2 + 1)) = _
      rw [if_neg hc]
      have hinner : fixLoop (fix_tree_once steps) p 19
          (p (fix_tree_once steps t)) (fix_tree_once steps t)
          = (Except.ok (fix_tree_once steps t), 1) := by
        show (if p (fix_tree_once steps (fix_tree_once steps t))
              = p (fix_tree_once steps t)
          then (Except.ok (fix_tree_once steps (fix_tree_once steps t)), 1)
          else
            let r := fixLoop (fix_tree_once steps) p 18
              (p (fix_tree_once steps (fix_tree_once steps t)))
              (fix_tree_once steps (fix_tree_once steps t))
            (r.1, r.2 + 1)) = _
        rw [h t, if_pos rfl]
      simp only [hinner]
  rcases key with hk | hk <;> rw [hk] <;> exact ⟨rfl, by omega⟩

/-- Witness for the amended C5: a constant full pass is idempotent and the
rewriter returns within two passes. -/
theorem c5_witness :
    (fixer_fix [fun _ : Nat => 0] Nat.repr 5).1 = Except.ok 0 ∧
      (fixer_fix [fun _ : Nat => 0] Nat.repr 5).2 ≤ 2 :=
  c5_fixed_point [fun _ : Nat => 0] Nat.repr 5 (fun _ => rfl)

/-- Test whether a string begins with the path separator. -/
def strHeadIsSlash (s : String) : Bool :=
  match s.toList with
  | c :: _ => c == '/'
  | [] => false

/-- Test whether a string ends with the path separator. -/
def strLastIsSlash (s : String) : Bool :=
  match s.toList.getLast? with
  | some c => c == '/'
  | none => false

/-- The two-argument POSIX `os.path.join` used by the install paths: an
absolute second component replaces the first; otherwise the components are
joined with a single separator. -/
def pathJoin (a b : String) : String :=
  if strHeadIsSlash b then b
  else if a = "" then b
  else if strLastIsSlash a then a ++ b
  else a ++ "/" ++ b

/-- Destination-directory selection of `copy_prebuilt_etc_files` in
`prebuilt_etc_parser.py`: vendor else system first, then an `if recovery`
reassignment, then an `if ramdisk` reassignment, each joining the root with
the record's `sub_dir`. -/
def prebuilt_etc_dest_dir (vendorEtc systemEtc recoveryEtc ramdiskOut subDir : String)
    (isVendor isRecovery isRamdisk : Bool) : String :=
  let d1 := if isVendor then pathJoin vendorEtc subDir else pathJoin systemEtc subDir
  let d2 := if isRecovery then pathJoin recoveryEtc subDir else d1
  if isRamdisk then pathJoin ramdiskOut subDir else d2

/-- Output-directory selection of `compile_cc_binary` in `cc_library.py`:
recovery, else vendor, else the system binary root. -/
def cc_binary_output_dir (recoveryBin vendorBin systemBin : String)
    (recoveryAvailable isVendor : Bool) : String :=
  if recoveryAvailable then recoveryBin
  else if isVendor then vendorBin
  else systemBin

/-- Destination selection written as the amended precedence chain of C7:
first flag that holds among ramdisk, recovery, vendor wins; otherwise the
default system root. -/
def destDirPrecedenceSpec (vendorEtc systemEtc recoveryEtc ramdiskOut subDir : String)
    (isVendor isRecovery isRamdisk : Bool) : String :=
  if isRamdisk then pathJoin ramdiskOut subDir
  else if isRecovery then pathJoin recoveryEtc subDir
  else if isVendor then pathJoin vendorEtc subDir
  else pathJoin systemEtc subDir

/-- Binary output selection written as the precedence chain recovery, then
vendor, then default system. -/
def binOutDirPrecedenceSpec (recoveryBin vendorBin systemBin : String)
    (recoveryAvailable isVendor : Bool) : String :=
  if recoveryAvailable then recoveryBin
  else if isVendor then vendorBin
  else systemBin

/-- C7 counterexample: a prebuilt-etc record with both `recovery` and
`ramdisk` set installs under the ramdisk root, not the recovery root the
claim's precedence (recovery > vendor > ramdisk > system) demands. -/
theorem c7_counterexample :
    prebuilt_etc_dest_dir "vend" "sys" "recov" "ramd" "sub" false true true
      = "ramd/sub" ∧
    prebuilt_etc_dest_dir "vend" "sys" "recov" "ramd" "sub" false true true
      ≠ "recov/sub" := by
  constructor
  · rfl
  · decide

/-- C7 amended: installation picks exactly one destination root per record,
with fixed precedence ramdisk > recovery > vendor > default-system for
prebuilt etc files (so a record with both recovery and ramdisk set installs
under the ramdisk root), and recovery > vendor > default-system for
compiled binaries, regardless of how many flags are simultaneously set. -/
theorem c7_install_precedence
    (vendorEtc systemEtc recoveryEtc ramdiskOut subDir : String)
    (recoveryBin vendorBin systemBin : String)
    (isVendor isRecovery isRamdisk recoveryAvailable : Bool) :
    prebuilt_etc_dest_dir vendorEtc systemEtc recoveryEtc ramdiskOut subDir
        isVendor isRecovery isRamdisk
      = destDirPrecedenceSpec vendorEtc systemEtc recoveryEtc ramdiskOut subDir
        isVendor isRecovery isRamdisk ∧
    cc_binary_output_dir recoveryBin vendorBin systemBin recoveryAvailable isVendor
      = binOutDirPrecedenceSpec recoveryBin vendorBin systemBin recoveryAvailable isVendor := by
  constructor
  · cases isVendor <;> cases isRecovery <;> cases isRamdisk <;> rfl
  · rfl

/-- Canonical library artifact path, the `get_library_path` function of
`cc_library.py`: static archives, header library intermediates, and shared
objects live under fixed subtrees of the product output directory. -/
def get_library_path (productOut libName libType : String) : String :=
  if libType = "static" then
    pathJoin (pathJoin (pathJoin (pathJoin productOut "obj/lib/STATIC_LIBRARIES")
      (libName ++ "_intermediates")) "LINKED") (libName ++ ".a")
  else if libType = "headers" then
    pathJoin (pathJoin productOut "obj/lib/HEADER_LIBRARIES") (libName ++ "_intermediates")
  else
    pathJoin (pathJoin (pathJoin (pathJoin productOut "obj/lib/SHARED_LIBRARIES")
      (libName ++ "_intermediates")) "LINKED") (libName ++ ".so")

/-- The linker argument vector built by `link_executable` in
`cc_library.py`: base invocation plus object files, then each static and
shared library dependency — but only those whose artifact file exists
(`fsExists` models `os.path.exists`) — then the trailing linker flags. -/
def link_executable_cmd (cxx productOut outputFile : String)
    (objFiles sharedLibs staticLibs : List String)
    (fsExists : String → Bool) : List String :=
  [cxx, "-fuse-ld=mold", "-o", outputFile, "-Wl,-rpath,./usr/lib64/"] ++ objFiles
    ++ (staticLibs.map (fun l => get_library_path productOut l "static")).filter fsExists
    ++ (sharedLibs.map (fun l => get_library_path productOut l "shared")).filter fsExists
    ++ ["-Wl,--no-undefined", "-Wl,--as-needed"]

/-- C9 counterexample: with a single static library dependency whose
artifact is absent, the canonical artifact path is not passed to the linker
invocation at all — the existence pre-check skips it, contradicting the
claim that the linker always receives it. -/
theorem c9_counterexample :
    get_library_path "out/prod" "foo" "static"
      ∉ link_executable_cmd "clang++" "out/prod" "LINKED/app" ["a.o"] [] ["foo"]
        (fun _ => false) := by decide

/-- C9 amended: a named library dependency is resolved to its canonical
artifact path and passed to the linker exactly when that artifact exists;
a dependency whose artifact is absent is reported and skipped, never
reaching the linker command. Membership in the built command is precisely:
a fixed argument, an object file, or an existing library artifact path. -/
theorem c9_link_cmd_membership (cxx productOut outputFile : String)
    (objFiles sharedLibs staticLibs : List String)
    (fsExists : String → Bool) (s : String) :
    s ∈ link_executable_cmd cxx productOut outputFile objFiles sharedLibs
        staticLibs fsExists ↔
      (s ∈ [cxx, "-fuse-ld=mold", "-o", outputFile, "-Wl,-rpath,./usr/lib64/",
          "-Wl,--no-undefined", "-Wl,--as-needed"] ∨
        s ∈ objFiles ∨
        (fsExists s = true ∧
          (s ∈ staticLibs.map (fun l => get_library_path productOut l "static") ∨
           s ∈ sharedLibs.map (fun l => get_library_path productOut l "shared")))) := by
  simp only [link_executable_cmd, List.mem_append, List.mem_filter,
    List.mem_cons, List.not_mem_nil, or_false]
  tauto

/-- Python dict assignment `map[name] = config` on a name-keyed lookup map:
later registrations of the same name shadow earlier ones. -/
def insertMap (mp : String → Option Record) (k : String) (r : Record) :
    String → Option Record :=
  fun x => if x = k then some r else mp x

/-- One step of the classification loop of `compile_modules_for_packages`
(`main_build.py`) and `main` (`cc_binary_parser.py`) restricted to the two
defaults maps: a record of type `defaults` is registered under its name in
the first map, a record of type `cc_defaults` in the second; every other
record leaves both maps unchanged. -/
def registerConfig (maps : (String → Option Record) × (String → Option Record))
    (config : Record) : (String → Option Record) × (String → Option Record) :=
  match getVal config "type", getVal config "name" with
  | some (Value.str "defaults"), some (Value.str n) => (insertMap maps.1 n config, maps.2)
  | some (Value.str "cc_defaults"), some (Value.str n) => (maps.1, insertMap maps.2 n config)
  | _, _ => maps

/-- The pair `(defaults_map, cc_defaults_map)` built by folding the
classification loop over all parsed configs. -/
def build_defaults_maps (configs : List Record) :
    (String → Option Record) × (String → Option Record) :=
  configs.foldl registerConfig (fun _ => none, fun _ => none)

/-- The merged lookup mapping `{**defaults_map, **cc_defaults_map}`: a name
present in the cc_defaults map resolves there, otherwise in the defaults
map. -/
def merged_defaults_map (dm ccm : String → Option Record) :
    String → Option Record :=
  fun n =>
    match ccm n with
    | some r => some r
    | none => dm n

theorem registerConfig_cc_type
    (maps : (String → Option Record) × (String → Option Record)) (config : Record)
    (h : ∀ n r, maps.2 n = some r → getVal r "type" = some (Value.str "cc_defaults")) :
    ∀ n r, (registerConfig maps config).2 n = some r →
      getVal r "type" = some (Value.str "cc_defaults") := by
  intro n r hr
  unfold registerConfig at hr
  split at hr
  · exact h n r hr
  · rename_i nk heqty heqnm
    simp only [insertMap] at hr
    by_cases hx : n = nk
    · rw [if_pos hx] at hr
      injection hr with hr
      subst hr
      exact heqty
    · rw [if_neg hx] at hr
      exact h n r hr
  · exact h n r hr

theorem foldl_registerConfig_cc_type (configs : List Record) :
    ∀ (maps : (String → Option Record) × (String → Option Record)),
    (∀ n r, maps.2 n = some r → getVal r "type" = some (Value.str "cc_defaults")) →
    ∀ n r, (configs.foldl registerConfig maps).2 n = some r →
      getVal r "type" = some (Value.str "cc_defaults") := by
  induction configs with
  | nil => intro maps h n r hr; exact h n r hr
  | cons cfg rest ih =>
    intro maps h n r hr
    rw [List.foldl_cons] at hr
    exact ih (registerConfig maps cfg) (registerConfig_cc_type maps cfg h) n r hr

/-- C10: in the merged lookup mapping `{**defaults_map, **cc_defaults_map}`,
a name registered in the cc_defaults map always resolves to that record —
which is of type `cc_defaults`, never the same-named `defaults` record —
for every list of parsed configs. -/
theorem c10_cc_defaults_precedence (configs : List Record) (n : String)
    (r : Record) (h : (build_defaults_maps configs).2 n = some r) :
    merged_defaults_map (build_defaults_maps configs).1
        (build_defaults_maps configs).2 n = some r ∧
      getVal r "type" = some (Value.str "cc_defaults") := by
  constructor
  · unfold merged_defaults_map
    rw [h]
  · exact foldl_registerConfig_cc_type configs _
      (fun n2 r2 hr => Option.noConfusion hr) n r h

/-- Witness for C10: a `defaults` record and a `cc_defaults` record share
the name `a`; the merged map yields the cc_defaults record. -/
theorem c10_witness :
    merged_defaults_map
      (build_defaults_maps
        [[("type", Value.str "defaults"), ("name", Value.str "a"), ("x", Value.int 1)],
         [("type", Value.str "cc_defaults"), ("name", Value.str "a"), ("x", Value.int 2)]]).1
      (build_defaults_maps
        [[("type", Value.str "defaults"), ("name", Value.str "a"), ("x", Value.int 1)],
         [("type", Value.str "cc_defaults"), ("name", Value.str "a"), ("x", Value.int 2)]]).2
      "a"
      = some [("type", Value.str "cc_defaults"), ("name", Value.str "a"), ("x", Value.int 2)] ∧
    getVal [("type", Value.str "cc_defaults"), ("name", Value.str "a"), ("x", Value.int 2)]
        "type" = some (Value.str "cc_defaults") :=
  c10_cc_defaults_precedence
    [[("type", Value.str "defaults"), ("name", Value.str "a"), ("x", Value.int 1)],
     [("type", Value.str "cc_defaults"), ("name", Value.str "a"), ("x", Value.int 2)]]
    "a"
    [("type", Value.str "cc_defaults"), ("name", Value.str "a"), ("x", Value.int 2)]
    rfl

/-- The regex word class `\w`: ASCII letters, digits, and underscore. -/
def isWordChar (c : Char) : Bool := c.isAlphanum || c == '_'

/-- The regex space class `\s`: space, tab, newline, carriage return,
vertical tab, form feed. -/
def isSpaceChar (c : Char) : Bool :=
  c == ' ' || c == '\t' || c == '\n' || c == '\r'
    || c == Char.ofNat 11 || c == Char.ofNat 12

/-- Matcher for the three bracketed value alternatives of the extraction
regex in `extract_key_value_pairs` (`blueprint_parser.py`): an opening
token, a greedy run of characters other than the closing token, then the
closing token; the match fails when the closing token is missing. -/
def matchBracket (opn cls : Char) (r : List Char) :
    Option (List Char × List Char) :=
  let body := r.takeWhile (fun c => c != cls)
  match r.drop body.length with
  | c2 :: r2 => if c2 = cls then some (opn :: (body ++ [cls]), r2) else none
  | [] => none

/-- Matcher for the remaining value alternatives of the extraction regex:
the literals `true` and `false`, then a greedy nonempty digit run. A bare
identifier matches none of these, so the whole value match fails. -/
def matchValueKeyword (cs : List Char) : Option (List Char × List Char) :=
  if cs.take 4 = "true".toList then some ("true".toList, cs.drop 4)
  else if cs.take 5 = "false".toList then some ("false".toList, cs.drop 5)
  else
    let ds := cs.takeWhile Char.isDigit
    if ds.isEmpty then none else some (ds, cs.drop ds.length)

/-- The value alternation of the extraction regex, tried in written order:
list, nested block, quoted string, `true`, `false`, digit run. -/
def matchValue (cs : List Char) : Option (List Char × List Char) :=
  match cs with
  | [] => matchValueKeyword []
  | c :: r =>
    if c = '[' then matchBracket '[' ']' r
    else if c = '{' then matchBracket '{' '}' r
    else if c = '"' then matchBracket '"' '"' r
    else matchValueKeyword (c :: r)

/-- An attempt to match the whole key-value pattern
`(\w+)\s*:\s*(value)` at the head of the input, returning the key, the
captured value token, and the remaining input. -/
def matchAt (cs : List Char) : Option (List Char × List Char × List Char) :=
  let key := cs.takeWhile isWordChar
  if key.isEmpty then none
  else
    match (cs.drop key.length).dropWhile isSpaceChar with
    | c1 :: r2 =>
      if c1 = ':' then
        match matchValue (r2.dropWhile isSpaceChar) with
        | some (v, rest) => some (key, v, rest)
        | none => none
      else none
    | [] => none

/-- The scan of `re.findall` over the block content: try the pattern at
each position, emitting the pair and continuing after a match, else
advancing one character. The fuel equals the input length, which bounds the
number of scan steps since every step consumes at least one character. -/
def findKVAux : Nat → List Char → List (List Char × List Char)
  | 0, _ => []
  | _ + 1, [] => []
  | fuel + 1, c :: cs =>
    match matchAt (c :: cs) with
    | some (k, v, rest) => (k, v) :: findKVAux fuel rest
    | none => findKVAux fuel cs

/-- The `extract_key_value_pairs` function of `blueprint_parser.py`: all
key-value pairs the regex finds in the block content, in scan order. -/
def extract_key_value_pairs (content : String) : List (List Char × List Char) :=
  findKVAux content.toList.length content.toList

/-- Shapes a captured value token can take: one of the five recognized
kinds — list, nested block, quoted string, boolean literal, digit run —
and never a bare identifier. -/
def tokenRecognized (v : List Char) : Prop :=
  (∃ r, v = '[' :: r) ∨ (∃ r, v = '{' :: r) ∨ (∃ r, v = '"' :: r) ∨
    v = "true".toList ∨ v = "false".toList ∨
    (v ≠ [] ∧ v.all Char.isDigit = true)

theorem all_takeWhile_holds (p : Char → Bool) (cs : List Char) :
    (cs.takeWhile p).all p = true := by
  induction cs with
  | nil => rfl
  | cons c r ih =>
    by_cases hc : p c
    · simp [List.takeWhile_cons, hc, ih]
    · simp [List.takeWhile_cons, hc]

theorem matchValueKeyword_recognized {cs v rest : List Char}
    (h : matchValueKeyword cs = some (v, rest)) : tokenRecognized v := by
  unfold matchValueKeyword at h
  split at h
  · simp only [Option.some.injEq, Prod.mk.injEq] at h
    exact Or.inr (Or.inr (Or.inr (Or.inl h.1.symm)))
  · split at h
    · simp only [Option.some.injEq, Prod.mk.injEq] at h
      exact Or.inr (Or.inr (Or.inr (Or.inr (Or.inl h.1.symm))))
    · simp only at h
      split at h
      · exact Option.noConfusion h
      · rename_i hne
        simp only [Option.some.injEq, Prod.mk.injEq] at h
        obtain ⟨h1, _⟩ := h
        subst h1
        refine Or.inr (Or.inr (Or.inr (Or.inr (Or.inr ⟨?_, ?_⟩))))
        · intro hnil
          rw [hnil] at hne
          exact hne rfl
        · exact all_takeWhile_holds Char.isDigit cs

theorem matchBracket_shape {opn cls : Char} {r v rest : List Char}
    (h : matchBracket opn cls r = some (v, rest)) : ∃ b, v = opn :: b := by
  unfold matchBracket at h
  dsimp only at h
  split at h
  · split at h
    · simp only [Option.some.injEq, Prod.mk.injEq] at h
      exact ⟨_, h.1.symm⟩
    · exact Option.noConfusion h
  · exact Option.noConfusion h

theorem matchValue_recognized {cs v rest : List Char}
    (h : matchValue cs = some (v, rest)) : tokenRecognized v := by
  unfold matchValue at h
  cases cs with
  | nil => exact matchValueKeyword_recognized h
  | cons c r =>
    simp only at h
    split at h
    · rename_i hc
      obtain ⟨b, hb⟩ := matchBracket_shape h
      subst hc
      exact Or.inl ⟨b, hb⟩
    · split at h
      · rename_i hc
        obtain ⟨b, hb⟩ := matchBracket_shape h
        subst hc
        exact Or.inr (Or.inl ⟨b, hb⟩)
      · split at h
        · rename_i hc
          obtain ⟨b, hb⟩ := matchBracket_shape h
          subst hc
          exact Or.inr (Or.inr (Or.inl ⟨b, hb⟩))
        · exact matchValueKeyword_recognized h

theorem matchAt_recognized {cs k v rest : List Char}
    (h : matchAt cs = some (k, v, rest)) : tokenRecognized v := by
  unfold matchAt at h
  dsimp only at h
  split at h
  · exact Option.noConfusion h
  · split at h
    · split at h
      · split at h
        · rename_i hmv
          simp only [Option.some.injEq, Prod.mk.injEq] at h
          obtain ⟨-, h2, -⟩ := h
          subst h2
          exact matchValue_recognized hmv
        · exact Option.noConfusion h
      · exact Option.noConfusion h
    · exact Option.noConfusion h

theorem findKVAux_recognized (fuel : Nat) : ∀ (cs : List Char)
    (kv : List Char × List Char), kv ∈ findKVAux fuel cs →
    tokenRecognized kv.2 := by
  induction fuel with
  | zero => intro cs kv h; simp [findKVAux] at h
  | succ n ih =>
    intro cs kv h
    cases cs with
    | nil => simp [findKVAux] at h
    | cons c r =>
      rw [findKVAux] at h
      cases hma : matchAt (c :: r) with
      | some t =>
        obtain ⟨k, v, rest⟩ := t
        rw [hma] at h
        simp only [List.mem_cons] at h
        rcases h with h | h
        · subst h
          exact matchAt_recognized hma
        · exact ih rest kv h
      | none =>
        rw [hma] at h
        exact ih r kv h

/-- C8 amended: every value token the key-value extraction produces is a
list, nested block, quoted string, boolean literal, or digit run; a bare
identifier never matches the value alternation, so the corresponding
property is omitted from the resulting ModuleRecord rather than preserved
as an opaque reference. -/
theorem c8_no_bare_reference (content : String) (kv : List Char × List Char)
    (h : kv ∈ extract_key_value_pairs content) : tokenRecognized kv.2 :=
  findKVAux_recognized content.toList.length content.toList kv h

/-- C8 counterexample: in the block content `name : "m", team : t1` the
property `team`, whose value token is the bare identifier `t1`, is not
matched by the extraction at all and is dropped — only `name` reaches the
ModuleRecord, contradicting the claim that bare-identifier properties are
produced as opaque reference placeholders. -/
theorem c8_counterexample :
    (extract_key_value_pairs "name : \"m\", team : t1").map Prod.fst
      = ["name".toList] := by decide

/-- Witness for the amended C8 at the quoted-string pair extracted from the
same concrete block content. -/
theorem c8_witness : tokenRecognized ("\"m\"".toList) :=
  c8_no_bare_reference "name : \"m\", team : t1"
    ("name".toList, "\"m\"".toList) (by decide)
